import Mathlib

/-!
Verification of the SLIM BPR recommender (file Code/SLIM_BPR_Python.py).

The development is a shallow embedding of the Python source into Lean:
numpy float32 arrays become total functions into ℚ (exact arithmetic in
place of floating point), scipy sparse rows become lists of
(column, value) pairs, and the transcendental np.exp is abstracted as an
arbitrary function parameter e : ℚ → ℚ, so that every statement about the
update arithmetic holds for the actual exponential as a special case.
Randomness (np.random draws) is modelled by explicit streams of natural
numbers; np.random.randint(0, m) applied to a draw r is r % m.
-/

namespace SLIMBPR

/-- Dense square matrices (numpy n×n float arrays) as total functions into ℚ. -/
abbrev Mat (n : ℕ) := Fin n → Fin n → ℚ

section Argsort

variable {n : ℕ} {β : Type*} [LinearOrder β]

/-- Model of np.argsort applied to one column: the row indices sorted by ascending
column value.  np.argsort breaks ties arbitrarily; the embedding fixes the order
produced by a stable insertion sort, which is one admissible outcome. -/
def argsortCol (col : Fin n → β) : List (Fin n) :=
  List.insertionSort (fun a b => col a ≤ col b) (List.finRange n)

lemma argsortCol_perm (col : Fin n → β) : (argsortCol col).Perm (List.finRange n) :=
  List.perm_insertionSort _ _

lemma argsortCol_sorted (col : Fin n → β) :
    List.Sorted (fun a b => col a ≤ col b) (argsortCol col) := by
  haveI : IsTotal (Fin n) (fun a b => col a ≤ col b) := ⟨fun a b => le_total (col a) (col b)⟩
  haveI : IsTrans (Fin n) (fun a b => col a ≤ col b) := ⟨fun _ _ _ hab hbc => le_trans hab hbc⟩
  exact List.sorted_insertionSort _ _

lemma argsortCol_length (col : Fin n → β) : (argsortCol col).length = n := by
  rw [(argsortCol_perm col).length_eq, List.length_finRange]

lemma argsortCol_nodup (col : Fin n → β) : (argsortCol col).Nodup :=
  (argsortCol_perm col).nodup_iff.mpr (List.nodup_finRange n)

lemma mem_argsortCol (col : Fin n → β) (r : Fin n) : r ∈ argsortCol col :=
  (argsortCol_perm col).mem_iff.mpr (List.mem_finRange r)

/-- A list sorted by ascending key splits as a prefix where an upward-closed
predicate fails followed by a suffix where it holds. -/
lemma sorted_split {α : Type*} (f : α → β) (p : α → Prop)
    (hp : ∀ a b, f a ≤ f b → p a → p b) :
    ∀ L : List α, List.Sorted (fun a b => f a ≤ f b) L →
      ∃ A B, L = A ++ B ∧ (∀ x ∈ A, ¬ p x) ∧ (∀ x ∈ B, p x)
  | [], _ => ⟨[], [], rfl, by simp, by simp⟩
  | a :: l, h => by
    obtain ⟨hd, tl⟩ := List.sorted_cons.mp h
    by_cases hpa : p a
    · refine ⟨[], a :: l, rfl, by simp, ?_⟩
      intro x hx
      rcases List.mem_cons.mp hx with rfl | hx
      · exact hpa
      · exact hp a x (hd x hx) hpa
    · obtain ⟨A, B, hAB, hA, hB⟩ := sorted_split f p hp l tl
      refine ⟨a :: A, B, by simp [hAB], ?_, hB⟩
      intro x hx
      rcases List.mem_cons.mp hx with rfl | hx
      · exact hpa
      · exact hA x hx

end Argsort

/-- Transfer a Finset cardinality over Fin n to a countP over List.finRange n. -/
lemma card_filter_univ_eq_countP {n : ℕ} (q : Fin n → Prop) [DecidablePred q] :
    (Finset.univ.filter q).card = (List.finRange n).countP (fun r => decide (q r)) := by
  rw [List.countP_eq_length_filter]
  rw [← List.toFinset_card_of_nodup ((List.nodup_finRange n).filter _)]
  congr 1
  ext r
  simp [List.mem_filter]

section TopKDense

variable {n : ℕ}

/-- Dense path of similarityMatrixTopK, per column: the clamped k is min k nitems, and
not_top_k is the Python slice idx_sorted[:-k].  For k greater than 0 that slice is the
first (n − k) sorted positions; for k equal to 0 the slice a[:-0] means a[:0], the empty
slice (nothing is zeroed). -/
def notTopKCol (col : Fin n → ℚ) (k : ℕ) : List (Fin n) :=
  if min k n = 0 then [] else (argsortCol col).take (n - min k n)

/-- Dense path of similarityMatrixTopK (item_weights a numpy array): for each column,
the row positions listed in not_top_k are assigned 0, every other entry is kept.
Shape is unchanged.  Models lines 65-90 of the source. -/
def selectTopKDense (M : Mat n) (k : ℕ) : Mat n :=
  fun r c => if r ∈ notTopKCol (fun r' => M r' c) k then 0 else M r c

end TopKDense

lemma countP_lt_length {α : Type*} (l : List α) (p : α → Bool) (x : α) (hx : x ∈ l)
    (hpx : ¬ p x) : l.countP p < l.length := by
  induction l with
  | nil => cases hx
  | cons a l ih =>
    have hle := List.countP_le_length (l := l) (p := p)
    rw [List.countP_cons, List.length_cons]
    rcases List.mem_cons.mp hx with rfl | hx2
    · have hpf : p x = false := by simpa using hpx
      rw [hpf, if_neg Bool.false_ne_true]
      omega
    · have hlt := ih hx2
      by_cases hpa : p a = true
      · rw [hpa, if_pos rfl]
        omega
      · have hpf : p a = false := by simpa using hpa
        rw [hpf, if_neg Bool.false_ne_true]
        omega

/-- Per-column behaviour of the dense top-K path, for columns with nonnegative entries:
the entries outside the not_top_k slice that are nonzero number exactly
min k (number of nonzero entries), and every kept nonzero entry is topped by
fewer than k column entries. -/
lemma topKDenseCol_spec {n : ℕ} (col : Fin n → ℚ) (k : ℕ) (hk : 1 ≤ k)
    (hcol : ∀ r, 0 ≤ col r) :
    ((List.finRange n).countP (fun r => decide (r ∉ notTopKCol col k ∧ col r ≠ 0))
        = min k ((List.finRange n).countP fun r => decide (col r ≠ 0)))
    ∧ (∀ r : Fin n, r ∉ notTopKCol col k → col r ≠ 0 →
        ((List.finRange n).countP fun r' => decide (col r < col r')) < k) := by
  by_cases hn : n = 0
  · subst hn
    exact ⟨by simp, fun r => r.elim0⟩
  have hn' : 0 < n := Nat.pos_of_ne_zero hn
  have hkc0 : ¬ (min k n = 0) := by omega
  have hnot : notTopKCol col k = (argsortCol col).take (n - min k n) := by
    unfold notTopKCol
    exact if_neg hkc0
  set kc := min k n with hkcdef
  set m := n - kc with hmdef
  set L := argsortCol col with hLdef
  have hlen : L.length = n := argsortCol_length col
  have hnd : L.Nodup := argsortCol_nodup col
  have hsor : List.Sorted (fun a b => col a ≤ col b) L := argsortCol_sorted col
  have hLsplit : L = L.take m ++ L.drop m := (List.take_append_drop m L).symm
  have hdisj : ∀ x ∈ L.drop m, x ∉ L.take m :=
    fun x hx hx' => (List.disjoint_take_drop hnd (le_refl m)) hx' hx
  obtain ⟨A, B, hAB, hA, hB⟩ := sorted_split col (fun r => 0 < col r)
      (fun a b hab ha => lt_of_lt_of_le ha hab) L hsor
  have hAzero : ∀ x ∈ A, col x = 0 := fun x hx => le_antisymm (not_lt.mp (hA x hx)) (hcol x)
  have hlenAB : A.length + B.length = n := by
    have h := hlen
    rw [hAB, List.length_append] at h
    exact h
  have hcountL : ∀ p : Fin n → Bool, (List.finRange n).countP p = L.countP p :=
    fun p => ((argsortCol_perm col).countP_eq p).symm
  constructor
  · rw [hcountL, hcountL]
    have hp : L.countP (fun r => decide (col r ≠ 0)) = B.length := by
      rw [hAB, List.countP_append]
      have h1 : A.countP (fun r => decide (col r ≠ 0)) = 0 :=
        List.countP_eq_zero.mpr (by intro x hx; simp [hAzero x hx])
      have h2 : B.countP (fun r => decide (col r ≠ 0)) = B.length :=
        List.countP_eq_length.mpr (by intro x hx; simp [(hB x hx).ne'])
      rw [h1, h2]
      omega
    have hLHS : L.countP (fun r => decide (r ∉ notTopKCol col k ∧ col r ≠ 0))
        = (L.drop m).countP (fun r => decide (col r ≠ 0)) := by
      conv_lhs => rw [hLsplit]
      rw [List.countP_append]
      have h1 : (L.take m).countP (fun r => decide (r ∉ notTopKCol col k ∧ col r ≠ 0)) = 0 :=
        List.countP_eq_zero.mpr (by intro x hx; simp [hnot, hx])
      have h2 : (L.drop m).countP (fun r => decide (r ∉ notTopKCol col k ∧ col r ≠ 0))
          = (L.drop m).countP (fun r => decide (col r ≠ 0)) :=
        List.countP_congr (by intro x hx; simp [hnot, hdisj x hx])
      rw [h1, h2]
      omega
    have hdropAB : L.drop m = A.drop m ++ B.drop (m - A.length) := by
      rw [hAB, List.drop_append_eq_append_drop]
    have hdropcount : (L.drop m).countP (fun r => decide (col r ≠ 0))
        = B.length - (m - A.length) := by
      rw [hdropAB, List.countP_append]
      have h1 : (A.drop m).countP (fun r => decide (col r ≠ 0)) = 0 :=
        List.countP_eq_zero.mpr
          (by intro x hx; simp [hAzero x (List.mem_of_mem_drop hx)])
      have h2 : (B.drop (m - A.length)).countP (fun r => decide (col r ≠ 0))
          = B.length - (m - A.length) := by
        rw [List.countP_eq_length.mpr
          (by intro x hx; simp [(hB x (List.mem_of_mem_drop hx)).ne'])]
        exact List.length_drop _ _
      rw [h1, h2]
      omega
    rw [hLHS, hdropcount, hp]
    omega
  · intro r hrnot hrne
    rw [hcountL]
    have hrL : r ∈ L := mem_argsortCol col r
    have hrdrop : r ∈ L.drop m := by
      have hmem : r ∈ L.take m ++ L.drop m := by rw [List.take_append_drop]; exact hrL
      rcases List.mem_append.mp hmem with h | h
      · exact absurd (show r ∈ notTopKCol col k by rw [hnot]; exact h) hrnot
      · exact h
    have hsplitcount : L.countP (fun r' => decide (col r < col r'))
        = (L.take m).countP (fun r' => decide (col r < col r'))
          + (L.drop m).countP (fun r' => decide (col r < col r')) := by
      conv_lhs => rw [hLsplit]
      exact List.countP_append _ _ _
    have htakerel : ∀ x ∈ L.take m, ∀ y ∈ L.drop m, col x ≤ col y := by
      have hpw : List.Pairwise (fun a b => col a ≤ col b) (L.take m ++ L.drop m) := by
        rw [List.take_append_drop]
        exact hsor
      exact (List.pairwise_append.mp hpw).2.2
    have htake : (L.take m).countP (fun r' => decide (col r < col r')) = 0 :=
      List.countP_eq_zero.mpr
        (by intro x hx; simp [not_lt.mpr (htakerel x hx r hrdrop)])
    have hdroplen : (L.drop m).length = kc := by
      rw [List.length_drop, hlen]
      omega
    have hdropbound : (L.drop m).countP (fun r' => decide (col r < col r')) < kc := by
      have h := countP_lt_length (L.drop m) (fun r' => decide (col r < col r')) r hrdrop
        (by simp)
      rw [hdroplen] at h
      exact h
    rw [hsplitcount, htake]
    omega

section TopKSparse

variable {n : ℕ}

/-- Sorting the stored entries of one sparse column by ascending value (the argsort
of column_data in the sparse path). -/
def sortByVal (l : List (Fin n × ℚ)) : List (Fin n × ℚ) :=
  List.insertionSort (fun a b => a.2 ≤ b.2) l

lemma sortByVal_perm (l : List (Fin n × ℚ)) : (sortByVal l).Perm l :=
  List.perm_insertionSort _ _

lemma sortByVal_sorted (l : List (Fin n × ℚ)) :
    List.Sorted (fun a b : Fin n × ℚ => a.2 ≤ b.2) (sortByVal l) := by
  haveI : IsTotal (Fin n × ℚ) (fun a b => a.2 ≤ b.2) := ⟨fun a b => le_total a.2 b.2⟩
  haveI : IsTrans (Fin n × ℚ) (fun a b => a.2 ≤ b.2) := ⟨fun _ _ _ hab hbc => le_trans hab hbc⟩
  exact List.sorted_insertionSort _ _

/-- Sparse path of similarityMatrixTopK, one CSC column (lines 92-126 of the source):
keep the stored entries whose value is nonzero, argsort them by value, and keep the
Python slice idx_sorted[-k:] — the k entries of largest value (all of them when there
are fewer than k; the whole list when k = 0, since a[-0:] is a[0:]). -/
def topKColSparse (entries : List (Fin n × ℚ)) (k : ℕ) : List (Fin n × ℚ) :=
  if k = 0 then sortByVal (entries.filter (fun p => decide (p.2 ≠ 0)))
  else (sortByVal (entries.filter (fun p => decide (p.2 ≠ 0)))).drop
    ((sortByVal (entries.filter (fun p => decide (p.2 ≠ 0)))).length - k)

/-- Value of a sparse column at a row index: the first stored entry at that row,
zero when the row is not stored. -/
def sparseColVal (entries : List (Fin n × ℚ)) (r : Fin n) : ℚ :=
  ((entries.find? (fun p => p.1 == r)).map Prod.snd).getD 0

/-- Per-column behaviour of the sparse top-K path, for columns with nonnegative
stored values. -/
lemma topKColSparse_spec (entries : List (Fin n × ℚ)) (k : ℕ) (hk : 1 ≤ k)
    (hnn : ∀ p ∈ entries, 0 ≤ p.2) :
    ((topKColSparse entries k).length
        = min k (entries.countP fun p => decide (p.2 ≠ 0)))
    ∧ (∀ p ∈ topKColSparse entries k, p ∈ entries ∧ p.2 ≠ 0
        ∧ ((List.finRange n).countP fun r => decide (p.2 < sparseColVal entries r)) < k)
    ∧ (∀ r : Fin n, r ∉ (topKColSparse entries k).map Prod.fst →
        sparseColVal (topKColSparse entries k) r = 0) := by
  have hk0 : ¬ (k = 0) := by omega
  set nz := entries.filter (fun p => decide (p.2 ≠ 0)) with hnz
  set sorted := sortByVal nz with hsorted
  have hout : topKColSparse entries k = sorted.drop (sorted.length - k) := by
    unfold topKColSparse
    rw [if_neg hk0, ← hnz, ← hsorted]
  have hsortlen : sorted.length = nz.length := (sortByVal_perm nz).length_eq
  have hsub : ∀ p ∈ topKColSparse entries k, p ∈ entries ∧ p.2 ≠ 0 := by
    intro p hp
    rw [hout] at hp
    have hp2 : p ∈ nz := (sortByVal_perm nz).mem_iff.mp (List.mem_of_mem_drop hp)
    have := List.mem_filter.mp hp2
    exact ⟨this.1, by simpa using this.2⟩
  refine ⟨?_, ?_, ?_⟩
  · rw [hout, List.length_drop, hsortlen, hnz, List.countP_eq_length_filter]
    omega
  · intro p hp
    obtain ⟨hpent, hpne⟩ := hsub p hp
    refine ⟨hpent, hpne, ?_⟩
    have hppos : 0 < p.2 := lt_of_le_of_ne (hnn p hpent) (Ne.symm hpne)
    -- step 1: rows whose column value tops p.2 inject into the nonzero entries topping p.2
    have hstep1 : ((List.finRange n).countP fun r => decide (p.2 < sparseColVal entries r))
        ≤ nz.countP (fun q => decide (p.2 < q.2)) := by
      rw [← card_filter_univ_eq_countP]
      have hsubset : (Finset.univ.filter fun r => p.2 < sparseColVal entries r)
          ⊆ ((nz.filter (fun q => decide (p.2 < q.2))).map Prod.fst).toFinset := by
        intro r hr
        have hr2 : p.2 < sparseColVal entries r := (Finset.mem_filter.mp hr).2
        have hfind : ∃ q, entries.find? (fun p' => p'.1 == r) = some q := by
          rcases hq : entries.find? (fun p' => p'.1 == r) with _ | q
          · exfalso
            rw [sparseColVal, hq] at hr2
            simp at hr2
            exact absurd hr2 (not_lt.mpr (le_of_lt hppos))
          · exact ⟨q, hq⟩
        obtain ⟨q, hq⟩ := hfind
        have hqr : q.1 = r := by simpa using List.find?_some hq
        have hqval : sparseColVal entries r = q.2 := by rw [sparseColVal, hq]; rfl
        have hqent : q ∈ entries := List.mem_of_find?_eq_some hq
        have hqnz : q ∈ nz := by
          rw [hnz]
          refine List.mem_filter.mpr ⟨hqent, ?_⟩
          have : (0 : ℚ) < q.2 := lt_trans hppos (hqval ▸ hr2)
          simp [this.ne']
        rw [List.mem_toFinset, List.mem_map]
        exact ⟨q, List.mem_filter.mpr ⟨hqnz, by simp [hqval ▸ hr2]⟩, hqr⟩
      calc (Finset.univ.filter fun r => p.2 < sparseColVal entries r).card
          ≤ ((nz.filter (fun q => decide (p.2 < q.2))).map Prod.fst).toFinset.card :=
            Finset.card_le_card hsubset
        _ ≤ ((nz.filter (fun q => decide (p.2 < q.2))).map Prod.fst).length :=
            List.toFinset_card_le _
        _ = nz.countP (fun q => decide (p.2 < q.2)) := by
            rw [List.length_map, List.countP_eq_length_filter]
    -- step 2: positional bound inside the sorted nonzero list
    have hstep2 : nz.countP (fun q => decide (p.2 < q.2)) < k := by
      have hm := hout ▸ hp
      set msp := sorted.length - k with hmsp
      have hcount2 : nz.countP (fun q => decide (p.2 < q.2))
          = sorted.countP (fun q => decide (p.2 < q.2)) :=
        ((sortByVal_perm nz).countP_eq _).symm
      have hssplit : sorted = sorted.take msp ++ sorted.drop msp :=
        (List.take_append_drop msp sorted).symm
      have htakerel : ∀ x ∈ sorted.take msp, ∀ y ∈ sorted.drop msp, x.2 ≤ y.2 := by
        have hpw : List.Pairwise (fun a b : Fin n × ℚ => a.2 ≤ b.2)
            (sorted.take msp ++ sorted.drop msp) := by
          rw [List.take_append_drop]
          exact sortByVal_sorted nz
        exact (List.pairwise_append.mp hpw).2.2
      have htake : (sorted.take msp).countP (fun q => decide (p.2 < q.2)) = 0 :=
        List.countP_eq_zero.mpr
          (by intro x hx; simp [not_lt.mpr (htakerel x hx p hm)])
      have hdropb : (sorted.drop msp).countP (fun q => decide (p.2 < q.2))
          < (sorted.drop msp).length :=
        countP_lt_length _ _ p hm (by simp)
      have hdroplen2 : (sorted.drop msp).length ≤ k := by
        rw [List.length_drop]
        omega
      have : sorted.countP (fun q => decide (p.2 < q.2))
          = (sorted.take msp).countP (fun q => decide (p.2 < q.2))
            + (sorted.drop msp).countP (fun q => decide (p.2 < q.2)) := by
        conv_lhs => rw [hssplit]
        exact List.countP_append _ _ _
      rw [hcount2, this, htake]
      omega
    exact lt_of_le_of_lt hstep1 hstep2
  · intro r hr
    rw [sparseColVal, List.find?_eq_none.mpr]
    · rfl
    · intro q hq
      simp only [beq_iff_eq]
      intro hqr
      exact hr (List.mem_map.mpr ⟨q, hq, hqr⟩)

end TopKSparse

/-- C10: selectTopK on a dense matrix with k = 0 (forceSparse disabled) returns the
matrix with every entry unchanged: the Python slice idx_sorted[:-0] is the empty
slice, so no entry is zeroed and the whole matrix is kept, rather than k = 0 being
rejected or treated as keep-nothing. -/
theorem selectTopKDense_k_zero_identity {n : ℕ} (M : Mat n) : selectTopKDense M 0 = M := by
  funext r c
  simp [selectTopKDense, notTopKCol]

/-- C4 (amended): for square matrices with NONNEGATIVE entries and k ≥ 1, selectTopK
keeps per column exactly min(k, number of nonzero entries) nonzero values, each kept
value is an original column value topped by fewer than k column entries (so it is one
of the k largest values of the column), and every other entry of the column is zero;
the shape is unchanged (the dense result is a total function on the same index type,
and the sparse result is a column of the same length-n index space).  The dense
conjunct covers the numpy-array path and the sparse conjunct covers the
compressed-column path of similarityMatrixTopK.  The original claim, without the
nonnegativity restriction, is refuted by selectTopK_drops_negative_entry. -/
theorem selectTopK_per_column_min_k_nnz (n : ℕ) :
    (∀ (M : Mat n) (k : ℕ), 1 ≤ k → (∀ r c, 0 ≤ M r c) → ∀ c : Fin n,
        ((Finset.univ.filter fun r => selectTopKDense M k r c ≠ 0).card
            = min k (Finset.univ.filter fun r => M r c ≠ 0).card)
        ∧ (∀ r, selectTopKDense M k r c ≠ 0 → selectTopKDense M k r c = M r c
            ∧ (Finset.univ.filter fun r' => M r c < M r' c).card < k)
        ∧ (∀ r, selectTopKDense M k r c = 0 ∨ selectTopKDense M k r c = M r c))
    ∧ (∀ (entries : List (Fin n × ℚ)) (k : ℕ), 1 ≤ k → (∀ p ∈ entries, 0 ≤ p.2) →
        ((topKColSparse entries k).length
            = min k (entries.countP fun p => decide (p.2 ≠ 0)))
        ∧ (∀ p ∈ topKColSparse entries k, p ∈ entries ∧ p.2 ≠ 0
            ∧ (Finset.univ.filter fun r => p.2 < sparseColVal entries r).card < k)
        ∧ (∀ r : Fin n, r ∉ (topKColSparse entries k).map Prod.fst →
            sparseColVal (topKColSparse entries k) r = 0)) := by
  constructor
  · intro M k hk hM c
    obtain ⟨ha, hb⟩ := topKDenseCol_spec (fun r => M r c) k hk (fun r => hM r c)
    have hres : ∀ r, selectTopKDense M k r c
        = if r ∈ notTopKCol (fun r' => M r' c) k then 0 else M r c := fun r => rfl
    refine ⟨?_, ?_, ?_⟩
    · rw [card_filter_univ_eq_countP, card_filter_univ_eq_countP, ← ha]
      apply List.countP_congr
      intro r _
      by_cases hmem : r ∈ notTopKCol (fun r' => M r' c) k
      · simp [hres r, hmem]
      · simp [hres r, hmem]
    · intro r hrne
      by_cases hmem : r ∈ notTopKCol (fun r' => M r' c) k
      · exact absurd (by simp [hres r, hmem]) hrne
      · have hval : selectTopKDense M k r c = M r c := by simp [hres r, hmem]
        refine ⟨hval, ?_⟩
        rw [card_filter_univ_eq_countP]
        exact hb r hmem (by rw [← hval]; exact hrne)
    · intro r
      by_cases hmem : r ∈ notTopKCol (fun r' => M r' c) k
      · left
        simp [hres r, hmem]
      · right
        simp [hres r, hmem]
  · intro entries k hk hnn
    obtain ⟨h1, h2, h3⟩ := topKColSparse_spec entries k hk hnn
    refine ⟨h1, ?_, h3⟩
    intro p hp
    obtain ⟨hpe, hpn, hcount⟩ := h2 p hp
    refine ⟨hpe, hpn, ?_⟩
    rw [card_filter_univ_eq_countP]
    exact hcount

/-- Concrete matrix refuting C4 as stated: one negative entry, the rest zeros. -/
def M4neg : Mat 2 := ![![-1, 0], ![0, 0]]

/-- C4 counterexample: for the dense matrix [[-1,0],[0,0]] and k = 1, column 0 has one
nonzero entry, but np.argsort ranks the zeros above the negative value, so the slice
idx_sorted[:-1] zeroes the -1 and the result column has 0 nonzero entries instead of
min(1,1) = 1: the claimed per-column count fails on matrices with negative entries. -/
theorem selectTopK_drops_negative_entry :
    ¬ ((Finset.univ.filter fun r => selectTopKDense M4neg 1 r 0 ≠ 0).card
        = min 1 (Finset.univ.filter fun r => M4neg r 0 ≠ 0).card) := by
  rw [card_filter_univ_eq_countP, card_filter_univ_eq_countP]
  norm_num [selectTopKDense, notTopKCol, argsortCol, M4neg, List.finRange_succ_eq_map,
    List.insertionSort, List.orderedInsert, List.countP_cons, Matrix.cons_val_zero,
    Matrix.cons_val_one, Matrix.head_cons]

/-- Concrete nonnegative dense matrix for the C4 witness. -/
def M4pos : Mat 2 := ![![1, 0], ![0, 2]]

/-- Concrete nonnegative sparse column for the C4 witness. -/
def E4pos : List (Fin 2 × ℚ) := [(0, 1)]

/-- Witness instantiating the amended C4 at a concrete nonnegative matrix, sparse
column and k = 1, discharging all hypotheses. -/
theorem selectTopK_per_column_min_k_nnz_witness :
    ((1 : ℕ) ≤ 1 ∧ (∀ r c, (0 : ℚ) ≤ M4pos r c) ∧ (∀ p ∈ E4pos, (0 : ℚ) ≤ p.2))
    ∧ (∀ c : Fin 2,
        ((Finset.univ.filter fun r => selectTopKDense M4pos 1 r c ≠ 0).card
            = min 1 (Finset.univ.filter fun r => M4pos r c ≠ 0).card)
        ∧ (∀ r, selectTopKDense M4pos 1 r c ≠ 0 → selectTopKDense M4pos 1 r c = M4pos r c
            ∧ (Finset.univ.filter fun r' => M4pos r c < M4pos r' c).card < 1)
        ∧ (∀ r, selectTopKDense M4pos 1 r c = 0 ∨ selectTopKDense M4pos 1 r c = M4pos r c))
    ∧ (((topKColSparse E4pos 1).length
            = min 1 (E4pos.countP fun p => decide (p.2 ≠ 0)))
        ∧ (∀ p ∈ topKColSparse E4pos 1, p ∈ E4pos ∧ p.2 ≠ 0
            ∧ (Finset.univ.filter fun r => p.2 < sparseColVal E4pos r).card < 1)
        ∧ (∀ r : Fin 2, r ∉ (topKColSparse E4pos 1).map Prod.fst →
            sparseColVal (topKColSparse E4pos 1) r = 0)) :=
  ⟨⟨le_refl 1, by intro r c; fin_cases r <;> fin_cases c <;> norm_num [M4pos],
    by intro p hp; simp only [E4pos, List.mem_singleton] at hp; rw [hp]; norm_num⟩,
   (selectTopK_per_column_min_k_nnz 2).1 M4pos 1 (le_refl 1)
     (by intro r c; fin_cases r <;> fin_cases c <;> norm_num [M4pos]),
   (selectTopK_per_column_min_k_nnz 2).2 E4pos 1 (le_refl 1)
     (by intro p hp; simp only [E4pos, List.mem_singleton] at hp; rw [hp]; norm_num)⟩

section UpdateRules

variable {nU nI : ℕ}

/-- Batch-size-1 branch of updateWeightsBatch (source lines 312-329 and 344-352):
seenItems is userSeenItems[u[0]]; x_uij is the sum over seenItems of
S[i,item] − S[j,item] read from the incoming S; gradient = 1/(1 + e x_uij) where e
abstracts np.exp; then S[i, seenItems] += learning_rate·gradient, S[i,i] = 0,
S[j, seenItems] −= learning_rate·gradient, S[j,j] = 0, in source order (numpy
fancy-index assignment touches each listed entry once, so the update is by
membership in seenItems). -/
def updateWeightsBatch1 (S : Mat nI) (seenItems : List (Fin nI)) (i j : Fin nI)
    (learning_rate : ℚ) (e : ℚ → ℚ) : Mat nI :=
  let x_uij : ℚ := (seenItems.map fun item => S i item - S j item).sum
  let gradient : ℚ := 1 / (1 + e x_uij)
  let S1 : Mat nI := fun r c =>
    if r = i ∧ c ∈ seenItems then S r c + learning_rate * gradient else S r c
  let S2 : Mat nI := fun r c => if r = i ∧ c = i then 0 else S1 r c
  let S3 : Mat nI := fun r c =>
    if r = j ∧ c ∈ seenItems then S2 r c - learning_rate * gradient else S2 r c
  fun r c => if r = j ∧ c = j then 0 else S3 r c

/-- C1: for a batch of size one with sampled triple (u, i, j) (the sampler guarantees
i ≠ j since i is seen and j is not), the update computes x_uij as the sum over
seen = UserSeenItems[u] of S[i,item] − S[j,item] on the pre-update S, sets
gradient = 1/(1 + exp x_uij) (np.exp abstracted as e), adds
learning_rate·gradient to S[i,item] and subtracts it from S[j,item] for every seen
item, zeroes S[i,i] and S[j,j], and changes no other entry of S. -/
theorem updateWeightsBatch1_closed_form (S : Mat nI) (seenItems : List (Fin nI))
    (i j : Fin nI) (learning_rate : ℚ) (e : ℚ → ℚ) (hij : i ≠ j) :
    updateWeightsBatch1 S seenItems i j learning_rate e = fun r c =>
      if r = i then
        (if c = i then 0
         else if c ∈ seenItems then
           S i c + learning_rate * (1 / (1 + e (seenItems.map fun item => S i item - S j item).sum))
         else S i c)
      else if r = j then
        (if c = j then 0
         else if c ∈ seenItems then
           S j c - learning_rate * (1 / (1 + e (seenItems.map fun item => S i item - S j item).sum))
         else S j c)
      else S r c := by
  funext r c
  simp only [updateWeightsBatch1]
  by_cases hri : r = i
  · by_cases hci : c = i
    · simp [hri, hci, hij]
    · by_cases hcs : c ∈ seenItems
      · simp [hri, hci, hcs, hij]
      · simp [hri, hci, hcs, hij]
  · by_cases hrj : r = j
    · by_cases hcj : c = j
      · simp [hrj, hcj, hri, Ne.symm hij]
      · by_cases hcs : c ∈ seenItems
        · simp [hrj, hcj, hcs, hri, Ne.symm hij]
        · simp [hrj, hcj, hcs, hri, Ne.symm hij]
    · simp [hri, hrj]

/-- Concrete all-zero 2×2 matrix for update-rule witnesses. -/
def Szero : Mat 2 := fun _ _ => 0

/-- Witness instantiating C1 at a concrete state: 2 items, seen = [0], i = 0, j = 1,
learning rate 1, e the identity function. -/
theorem updateWeightsBatch1_closed_form_witness :
    ((0 : Fin 2) ≠ 1)
    ∧ updateWeightsBatch1 Szero [0] 0 1 1 (fun x => x) = fun r c =>
        if r = 0 then
          (if c = 0 then 0
           else if c ∈ [(0 : Fin 2)] then
             Szero 0 c + 1 * (1 / (1 + (fun x => x) (([(0 : Fin 2)].map fun item => Szero 0 item - Szero 1 item)).sum))
           else Szero 0 c)
        else if r = 1 then
          (if c = 1 then 0
           else if c ∈ [(0 : Fin 2)] then
             Szero 1 c - 1 * (1 / (1 + (fun x => x) (([(0 : Fin 2)].map fun item => Szero 0 item - Szero 1 item)).sum))
           else Szero 1 c)
        else Szero r c :=
  ⟨by decide, updateWeightsBatch1_closed_form Szero [0] 0 1 1 (fun x => x) (by decide)⟩

/-- Batch branch of updateWeightsBatch (source lines 331-341 and 356-372), with
index-aligned sample arrays u, i, j of length batch_size = b: x_uij row t is row
S[i t] − S[j t] projected through the positive-mask row of user u t (the diagonal of
URM_mask[u,:]·(S[i]−S[j])ᵀ); gradient is the single scalar
(∑ rows 1/(1 + e x_uij))/b; itemsToUpdate is the boolean item vector
URM_mask[u,:].sum(axis=0) > 0; then S[i] += lr·gradient·itemsToUpdate with the
diagonal positions (i t, i t) zeroed, and S[j] −= lr·gradient·itemsToUpdate with the
diagonal positions (j t, j t) zeroed (numpy fancy indexing updates each distinct row
once, so the row updates are by membership in the index arrays). -/
def updateWeightsBatchN (S : Mat nI) (URM_mask : Fin nU → Fin nI → Bool)
    (learning_rate : ℚ) (b : ℕ) (u : Fin b → Fin nU) (i j : Fin b → Fin nI)
    (e : ℚ → ℚ) : Mat nI :=
  let x_uij : Fin b → ℚ :=
    fun t => ∑ c, (if URM_mask (u t) c then (1 : ℚ) else 0) * (S (i t) c - S (j t) c)
  let gradient : ℚ := (∑ t, 1 / (1 + e (x_uij t))) / b
  let itemsToUpdate : Fin nI → Bool :=
    fun c => decide (0 < ∑ t, (if URM_mask (u t) c then (1 : ℕ) else 0))
  let upd : Fin nI → ℚ :=
    fun c => learning_rate * gradient * (if itemsToUpdate c then (1 : ℚ) else 0)
  let S1 : Mat nI := fun r c => if ∃ t, i t = r then S r c + upd c else S r c
  let S2 : Mat nI := fun r c => if (∃ t, i t = r) ∧ r = c then 0 else S1 r c
  let S3 : Mat nI := fun r c => if ∃ t, j t = r then S2 r c - upd c else S2 r c
  fun r c => if (∃ t, j t = r) ∧ r = c then 0 else S3 r c

lemma itemsToUpdate_iff {b : ℕ} (mask : Fin nU → Fin nI → Bool) (u : Fin b → Fin nU)
    (c : Fin nI) :
    (0 < ∑ t, (if mask (u t) c then (1 : ℕ) else 0)) ↔ ∃ t, mask (u t) c = true := by
  rw [Nat.pos_iff_ne_zero, Ne, Finset.sum_eq_zero_iff]
  constructor
  · intro h
    by_contra hno
    push_neg at hno
    exact h (fun t _ => by simp [hno t])
  · rintro ⟨t, ht⟩ h
    have := h t (Finset.mem_univ t)
    rw [ht] at this
    simp at this

/-- C2: for the batch branch of updateWeightsBatch (batch_size > 1) with index-aligned
sample arrays u, i, j: the gradient is one single scalar, the mean over batch rows of
sigmoid(−x_uij[row]) = 1/(1 + exp x_uij[row]) (np.exp abstracted as e), where
x_uij[row] projects S[i row] − S[j row] through the positive-mask row of its own user
u row only; itemsToUpdate is true for an item iff at least one batch user has it as a
positive interaction; every row listed in i gains learning_rate·gradient·itemsToUpdate,
every row listed in j loses the same vector, and the diagonal entries at i-rows and
j-rows are zeroed; every other entry is unchanged. -/
theorem updateWeightsBatchN_closed_form (S : Mat nI) (mask : Fin nU → Fin nI → Bool)
    (learning_rate : ℚ) (b : ℕ) (u : Fin b → Fin nU) (i j : Fin b → Fin nI)
    (e : ℚ → ℚ) (hb : 1 < b) :
    updateWeightsBatchN S mask learning_rate b u i j e = fun r c =>
      if r = c ∧ ((∃ t, i t = r) ∨ (∃ t, j t = r)) then 0
      else
        S r c
        + (if ∃ t, i t = r then
            learning_rate
              * ((∑ t, 1 / (1 + e (∑ c', (if mask (u t) c' then (1 : ℚ) else 0)
                    * (S (i t) c' - S (j t) c')))) / b)
              * (if ∃ t, mask (u t) c = true then (1 : ℚ) else 0)
           else 0)
        - (if ∃ t, j t = r then
            learning_rate
              * ((∑ t, 1 / (1 + e (∑ c', (if mask (u t) c' then (1 : ℚ) else 0)
                    * (S (i t) c' - S (j t) c')))) / b)
              * (if ∃ t, mask (u t) c = true then (1 : ℚ) else 0)
           else 0) := by
  funext r c
  simp only [updateWeightsBatchN]
  have hcond : ((decide (0 < ∑ t, (if mask (u t) c then (1 : ℕ) else 0))) = true)
      ↔ (∃ t, mask (u t) c = true) := by
    rw [decide_eq_true_iff]
    exact itemsToUpdate_iff mask u c
  have hupd : (if (decide (0 < ∑ t, (if mask (u t) c then (1 : ℕ) else 0))) = true
        then (1 : ℚ) else 0)
      = (if ∃ t, mask (u t) c = true then (1 : ℚ) else 0) := if_congr hcond rfl rfl
  rw [hupd]
  by_cases hi : ∃ t, i t = r
  · by_cases hj : ∃ t, j t = r
    · by_cases hrc : r = c
      · rw [if_pos (⟨hj, hrc⟩ : (∃ t, j t = r) ∧ r = c),
          if_pos (⟨hrc, Or.inl hi⟩ : r = c ∧ ((∃ t, i t = r) ∨ (∃ t, j t = r)))]
      · rw [if_neg (fun h : (∃ t, j t = r) ∧ r = c => hrc h.2), if_pos hj,
          if_neg (fun h : (∃ t, i t = r) ∧ r = c => hrc h.2), if_pos hi,
          if_neg (fun h : r = c ∧ ((∃ t, i t = r) ∨ (∃ t, j t = r)) => hrc h.1),
          if_pos hi, if_pos hj]
    · by_cases hrc : r = c
      · rw [if_neg (fun h : (∃ t, j t = r) ∧ r = c => hj h.1), if_neg hj,
          if_pos (⟨hi, hrc⟩ : (∃ t, i t = r) ∧ r = c),
          if_pos (⟨hrc, Or.inl hi⟩ : r = c ∧ ((∃ t, i t = r) ∨ (∃ t, j t = r)))]
      · rw [if_neg (fun h : (∃ t, j t = r) ∧ r = c => hj h.1), if_neg hj,
          if_neg (fun h : (∃ t, i t = r) ∧ r = c => hrc h.2), if_pos hi,
          if_neg (fun h : r = c ∧ ((∃ t, i t = r) ∨ (∃ t, j t = r)) => hrc h.1),
          if_pos hi, if_neg hj]
        ring
  · by_cases hj : ∃ t, j t = r
    · by_cases hrc : r = c
      · rw [if_pos (⟨hj, hrc⟩ : (∃ t, j t = r) ∧ r = c),
          if_pos (⟨hrc, Or.inr hj⟩ : r = c ∧ ((∃ t, i t = r) ∨ (∃ t, j t = r)))]
      · rw [if_neg (fun h : (∃ t, j t = r) ∧ r = c => hrc h.2), if_pos hj,
          if_neg (fun h : (∃ t, i t = r) ∧ r = c => hi h.1), if_neg hi,
          if_neg (fun h : r = c ∧ ((∃ t, i t = r) ∨ (∃ t, j t = r)) => hrc h.1),
          if_neg hi, if_pos hj]
        ring
    · by_cases hrc : r = c
      · rw [if_neg (fun h : (∃ t, j t = r) ∧ r = c => hj h.1), if_neg hj,
          if_neg (fun h : (∃ t, i t = r) ∧ r = c => hi h.1), if_neg hi,
          if_neg (fun h : r = c ∧ ((∃ t, i t = r) ∨ (∃ t, j t = r)) => h.2.elim hi hj),
          if_neg hi, if_neg hj]
        ring
      · rw [if_neg (fun h : (∃ t, j t = r) ∧ r = c => hj h.1), if_neg hj,
          if_neg (fun h : (∃ t, i t = r) ∧ r = c => hi h.1), if_neg hi,
          if_neg (fun h : r = c ∧ ((∃ t, i t = r) ∨ (∃ t, j t = r)) => hrc h.1),
          if_neg hi, if_neg hj]
        ring

/-- Concrete sample arrays and mask for the C2 witness: batch size 2, one user,
two items, positive item 0, negative item 1, empty mask. -/
def u2 : Fin 2 → Fin 1 := fun _ => 0

/-- Positive-item array for the C2 witness. -/
def i2 : Fin 2 → Fin 2 := fun _ => 0

/-- Negative-item array for the C2 witness. -/
def j2 : Fin 2 → Fin 2 := fun _ => 1

/-- Positive mask for the C2 witness. -/
def mask2 : Fin 1 → Fin 2 → Bool := fun _ _ => false

/-- Witness instantiating C2 at a concrete batch of size 2. -/
theorem updateWeightsBatchN_closed_form_witness :
    ((1 : ℕ) < 2)
    ∧ updateWeightsBatchN Szero mask2 1 2 u2 i2 j2 (fun x => x) = fun r c =>
        if r = c ∧ ((∃ t, i2 t = r) ∨ (∃ t, j2 t = r)) then 0
        else
          Szero r c
          + (if ∃ t, i2 t = r then
              1 * ((∑ t, 1 / (1 + (fun x => x) (∑ c', (if mask2 (u2 t) c' then (1 : ℚ) else 0)
                    * (Szero (i2 t) c' - Szero (j2 t) c')))) / ((2 : ℕ) : ℚ))
                * (if ∃ t, mask2 (u2 t) c = true then (1 : ℚ) else 0)
             else 0)
          - (if ∃ t, j2 t = r then
              1 * ((∑ t, 1 / (1 + (fun x => x) (∑ c', (if mask2 (u2 t) c' then (1 : ℚ) else 0)
                    * (Szero (i2 t) c' - Szero (j2 t) c')))) / ((2 : ℕ) : ℚ))
                * (if ∃ t, mask2 (u2 t) c = true then (1 : ℚ) else 0)
             else 0) :=
  ⟨by decide, updateWeightsBatchN_closed_form Szero mask2 1 2 u2 i2 j2 (fun x => x) (by decide)⟩

end UpdateRules

section Sampling

/-- Rejection loop for a negative item (source lines 165-170 and 213-222): repeatedly
draw a uniform item index (a raw draw r yields the index r % n_items) until one not in
the seen set is found.  The random stream is explicit; an exhausted stream models a
loop that has not yet returned. -/
def sampleNegativeItem (seen : List ℕ) (n_items : ℕ) : List ℕ → Option ℕ
  | [] => none
  | r :: rest =>
    if r % n_items ∈ seen then sampleNegativeItem seen n_items rest
    else some (r % n_items)

/-- sampleItemPair (source lines 154-170): the positive item is a uniformly drawn
member of the user's stored row indices (numpy raises on an empty row, modelled as
none), the negative item comes from the rejection loop over all items. -/
def sampleItemPair (row : List ℕ) (n_items : ℕ) (rPos : ℕ) (stream : List ℕ) :
    Option (ℕ × ℕ) :=
  if h : row = [] then none
  else
    (sampleNegativeItem row n_items stream).map
      (fun neg => (row.get ⟨rPos % row.length, Nat.mod_lt _ (List.length_pos.mpr h)⟩, neg))

/-- sampleUser (source lines 140-151): rejection-sample a user id whose row has at
least one and fewer than n_items interactions. -/
def sampleUser (URM_rows : ℕ → List ℕ) (n_users n_items : ℕ) : List ℕ → Option ℕ
  | [] => none
  | r :: rest =>
    if 0 < (URM_rows (r % n_users)).length ∧ (URM_rows (r % n_users)).length < n_items
    then some (r % n_users)
    else sampleUser URM_rows n_users n_items rest

/-- sampleTriple (source lines 173-182): a sampled user composed with sampleItemPair
on that user's row. -/
def sampleTriple (URM_rows : ℕ → List ℕ) (n_users n_items : ℕ) (userStream : List ℕ)
    (rPos : ℕ) (negStream : List ℕ) : Option (ℕ × ℕ × ℕ) :=
  (sampleUser URM_rows n_users n_items userStream).bind fun user_id =>
    (sampleItemPair (URM_rows user_id) n_items rPos negStream).map
      (fun pn => (user_id, pn.1, pn.2))

/-- One index position of sampleBatch (source lines 203-224): the user is a uniform
draw from eligibleUsers (np.random.choice raises on an empty list, modelled as none),
the positive a uniform draw from userSeenItems[user], the negative from the rejection
loop. -/
def sampleBatchOne (eligibleUsers : List ℕ) (userSeenItems : ℕ → List ℕ)
    (n_items : ℕ) (rUser rPos : ℕ) (stream : List ℕ) : Option (ℕ × ℕ × ℕ) :=
  if h : eligibleUsers = [] then none
  else
    let user_id := eligibleUsers.get
      ⟨rUser % eligibleUsers.length, Nat.mod_lt _ (List.length_pos.mpr h)⟩
    if h2 : userSeenItems user_id = [] then none
    else
      (sampleNegativeItem (userSeenItems user_id) n_items stream).map
        (fun neg => (user_id,
          (userSeenItems user_id).get
            ⟨rPos % (userSeenItems user_id).length, Nat.mod_lt _ (List.length_pos.mpr h2)⟩,
          neg))

/-- sampleBatch (source lines 203-224): batch_size independent samples, returned as an
index-aligned list of (user, positive, negative) triples; each element of draws holds
the raw random numbers of one sample. -/
def sampleBatch (eligibleUsers : List ℕ) (userSeenItems : ℕ → List ℕ) (n_items : ℕ) :
    List ((ℕ × ℕ) × List ℕ) → Option (List (ℕ × ℕ × ℕ))
  | [] => some []
  | d :: rest =>
    match sampleBatchOne eligibleUsers userSeenItems n_items d.1.1 d.1.2 d.2,
        sampleBatch eligibleUsers userSeenItems n_items rest with
    | some t, some ts => some (t :: ts)
    | _, _ => none

lemma sampleNegativeItem_spec (seen : List ℕ) (n_items : ℕ) (hI : 0 < n_items) :
    ∀ (stream : List ℕ) (q : ℕ), sampleNegativeItem seen n_items stream = some q →
      q ∉ seen ∧ q < n_items
  | [], q => by simp [sampleNegativeItem]
  | r :: rest, q => by
    unfold sampleNegativeItem
    by_cases hmem : r % n_items ∈ seen
    · rw [if_pos hmem]
      exact sampleNegativeItem_spec seen n_items hI rest q
    · rw [if_neg hmem]
      intro h
      obtain rfl : r % n_items = q := by simpa using h
      exact ⟨hmem, Nat.mod_lt _ hI⟩

lemma sampleItemPair_spec (row : List ℕ) (n_items : ℕ) (hI : 0 < n_items)
    (rPos : ℕ) (stream : List ℕ) (pos neg : ℕ)
    (h : sampleItemPair row n_items rPos stream = some (pos, neg)) :
    pos ∈ row ∧ neg ∉ row ∧ neg < n_items := by
  unfold sampleItemPair at h
  by_cases hrow : row = []
  · rw [dif_pos hrow] at h
    cases h
  · rw [dif_neg hrow] at h
    obtain ⟨q, hq, hpair⟩ := Option.map_eq_some'.mp h
    obtain ⟨hq1, hq2⟩ := sampleNegativeItem_spec row n_items hI stream q hq
    have hposmem : pos ∈ row := by
      have := congrArg Prod.fst hpair
      simp only at this
      rw [← this]
      exact List.get_mem row _ _
    have hnegq : neg = q := by
      have := congrArg Prod.snd hpair
      simpa using this.symm
    exact ⟨hposmem, hnegq ▸ hq1, hnegq ▸ hq2⟩

lemma sampleBatchOne_spec (eligibleUsers : List ℕ) (userSeenItems : ℕ → List ℕ)
    (n_items : ℕ) (hI : 0 < n_items) (rUser rPos : ℕ) (stream : List ℕ)
    (u pos neg : ℕ)
    (h : sampleBatchOne eligibleUsers userSeenItems n_items rUser rPos stream
      = some (u, pos, neg)) :
    pos ∈ userSeenItems u ∧ neg ∉ userSeenItems u ∧ neg < n_items := by
  unfold sampleBatchOne at h
  by_cases he : eligibleUsers = []
  · rw [dif_pos he] at h
    cases h
  · rw [dif_neg he] at h
    simp only at h
    set user_id := eligibleUsers.get
      ⟨rUser % eligibleUsers.length, Nat.mod_lt _ (List.length_pos.mpr he)⟩ with huser
    by_cases h2 : userSeenItems user_id = []
    · rw [dif_pos h2] at h
      cases h
    · rw [dif_neg h2] at h
      obtain ⟨q, hq, htrip⟩ := Option.map_eq_some'.mp h
      obtain ⟨hq1, hq2⟩ := sampleNegativeItem_spec (userSeenItems user_id) n_items hI stream q hq
      have hu : user_id = u := congrArg (fun t => t.1) htrip
      have hpos : pos ∈ userSeenItems u := by
        have := congrArg (fun t => t.2.1) htrip
        simp only at this
        rw [← this, ← hu]
        exact List.get_mem _ _ _
      have hneg : neg = q := by
        have := congrArg (fun t => t.2.2) htrip
        simpa using this.symm
      rw [← hu]
      exact ⟨hu ▸ hpos, hneg ▸ hq1, hneg ▸ hq2⟩

lemma sampleBatch_spec (eligibleUsers : List ℕ) (userSeenItems : ℕ → List ℕ)
    (n_items : ℕ) (hI : 0 < n_items) :
    ∀ (draws : List ((ℕ × ℕ) × List ℕ)) (out : List (ℕ × ℕ × ℕ)),
      sampleBatch eligibleUsers userSeenItems n_items draws = some out →
      ∀ t ∈ out, t.2.1 ∈ userSeenItems t.1 ∧ t.2.2 ∉ userSeenItems t.1 ∧ t.2.2 < n_items
  | [], out => by
    intro h t ht
    simp only [sampleBatch] at h
    obtain rfl : ([] : List (ℕ × ℕ × ℕ)) = out := by simpa using h
    cases ht
  | d :: rest, out => by
    intro h t ht
    simp only [sampleBatch] at h
    rcases h1 : sampleBatchOne eligibleUsers userSeenItems n_items d.1.1 d.1.2 d.2 with _ | t0
    · rw [h1] at h
      cases h
    · rcases h2 : sampleBatch eligibleUsers userSeenItems n_items rest with _ | ts
      · rw [h1, h2] at h
        cases h
      · rw [h1, h2] at h
        obtain rfl : t0 :: ts = out := by simpa using h
        rcases List.mem_cons.mp ht with rfl | htts
        · exact sampleBatchOne_spec eligibleUsers userSeenItems n_items hI d.1.1 d.1.2 d.2
            t.1 t.2.1 t.2.2 (by rw [h1])
        · exact sampleBatch_spec eligibleUsers userSeenItems n_items hI rest ts h2 t htts

/-- C3: every triple produced by the samplers — sampleItemPair (and sampleTriple,
which composes it with sampleUser) and every index-aligned position of sampleBatch's
output — satisfies, whenever the rejection loops return: the positive item is a
member of the sampled user's seen-item set, the negative item is not in that set,
and the negative item is a valid index below n_items. -/
theorem sampling_invariants (n_items : ℕ) (hI : 0 < n_items) :
    (∀ (row : List ℕ) (rPos : ℕ) (stream : List ℕ) (pos neg : ℕ),
        sampleItemPair row n_items rPos stream = some (pos, neg) →
        pos ∈ row ∧ neg ∉ row ∧ neg < n_items)
    ∧ (∀ (URM_rows : ℕ → List ℕ) (n_users : ℕ) (userStream : List ℕ) (rPos : ℕ)
        (negStream : List ℕ) (u pos neg : ℕ),
        sampleTriple URM_rows n_users n_items userStream rPos negStream
          = some (u, pos, neg) →
        pos ∈ URM_rows u ∧ neg ∉ URM_rows u ∧ neg < n_items)
    ∧ (∀ (eligibleUsers : List ℕ) (userSeenItems : ℕ → List ℕ)
        (draws : List ((ℕ × ℕ) × List ℕ)) (out : List (ℕ × ℕ × ℕ)),
        sampleBatch eligibleUsers userSeenItems n_items draws = some out →
        ∀ t ∈ out, t.2.1 ∈ userSeenItems t.1 ∧ t.2.2 ∉ userSeenItems t.1
          ∧ t.2.2 < n_items) := by
  refine ⟨?_, ?_, ?_⟩
  · intro row rPos stream pos neg h
    exact sampleItemPair_spec row n_items hI rPos stream pos neg h
  · intro URM_rows n_users userStream rPos negStream u pos neg h
    unfold sampleTriple at h
    obtain ⟨uid, huid, hrest⟩ := Option.bind_eq_some.mp h
    obtain ⟨pn, hpn, htrip⟩ := Option.map_eq_some'.mp hrest
    have hu : uid = u := congrArg (fun t => t.1) htrip
    have hp : pn.1 = pos := congrArg (fun t => t.2.1) htrip
    have hn : pn.2 = neg := congrArg (fun t => t.2.2) htrip
    have := sampleItemPair_spec (URM_rows uid) n_items hI rPos negStream pn.1 pn.2
      (by rw [hpn])
    rw [hu, hp, hn] at this
    exact this
  · intro eligibleUsers userSeenItems draws out h
    exact sampleBatch_spec eligibleUsers userSeenItems n_items hI draws out h

/-- Witness instantiating C3 at n_items = 2. -/
theorem sampling_invariants_witness :
    0 < 2
    ∧ ((∀ (row : List ℕ) (rPos : ℕ) (stream : List ℕ) (pos neg : ℕ),
          sampleItemPair row 2 rPos stream = some (pos, neg) →
          pos ∈ row ∧ neg ∉ row ∧ neg < 2)
      ∧ (∀ (URM_rows : ℕ → List ℕ) (n_users : ℕ) (userStream : List ℕ) (rPos : ℕ)
          (negStream : List ℕ) (u pos neg : ℕ),
          sampleTriple URM_rows n_users 2 userStream rPos negStream
            = some (u, pos, neg) →
          pos ∈ URM_rows u ∧ neg ∉ URM_rows u ∧ neg < 2)
      ∧ (∀ (eligibleUsers : List ℕ) (userSeenItems : ℕ → List ℕ)
          (draws : List ((ℕ × ℕ) × List ℕ)) (out : List (ℕ × ℕ × ℕ)),
          sampleBatch eligibleUsers userSeenItems 2 draws = some out →
          ∀ t ∈ out, t.2.1 ∈ userSeenItems t.1 ∧ t.2.2 ∉ userSeenItems t.1
            ∧ t.2.2 < 2)) :=
  ⟨by decide, sampling_invariants 2 (by decide)⟩

end Sampling

section FastSampling

variable {nU nI : ℕ}

/-- URM_mask computed in the constructor (source lines 242-245): the data of a copy of
URM_train is replaced by data >= positive_threshold and zeros are eliminated, so the
mask holds at (u, c) iff some stored entry (c, v) of row u has v at or above the
threshold.  This is the PositiveMask of the spec. -/
def URMmask (URM : Fin nU → List (Fin nI × ℚ)) (positive_threshold : ℚ)
    (u : Fin nU) (c : Fin nI) : Bool :=
  (URM u).any (fun p => p.1 == c && decide (positive_threshold ≤ p.2))

/-- The per-user seen-item list built by the fast-sampling setup (source lines
185-200): URM_train.multiply(URM_train > positive_threshold) keeps the stored entries
whose value is nonzero and STRICTLY greater than the threshold; the surviving column
indices of the row become userSeenItems[user]. -/
def fastSamplingSeen (URM : Fin nU → List (Fin nI × ℚ)) (positive_threshold : ℚ)
    (u : Fin nU) : List (Fin nI) :=
  ((URM u).filter
    (fun p => decide (p.2 ≠ 0) && decide (positive_threshold < p.2))).map Prod.fst

/-- eligibleUsers of the fast-sampling setup (source lines 188-200): the users, in
ascending order, whose positive row is nonempty. -/
def fastSamplingEligible (URM : Fin nU → List (Fin nI × ℚ)) (positive_threshold : ℚ) :
    List (Fin nU) :=
  (List.finRange nU).filter
    (fun u => decide (fastSamplingSeen URM positive_threshold u ≠ []))

end FastSampling

/-- C6 (amended): after the fast-sampling setup, UserSeenItems[u] is exactly the set
of items whose stored interaction value is nonzero and STRICTLY greater than
positive_threshold — not the ≥-thresholded PositiveMask row, because
initializeFastSampling recomputes its own mask with URM_train > positive_threshold —
and EligibleUsers is exactly the set of users whose strict-positive item list is
nonempty. -/
theorem fastSampling_seen_iff_strictly_greater {nU nI : ℕ}
    (URM : Fin nU → List (Fin nI × ℚ)) (thr : ℚ) :
    (∀ (u : Fin nU) (c : Fin nI),
        c ∈ fastSamplingSeen URM thr u ↔ ∃ v, (c, v) ∈ URM u ∧ v ≠ 0 ∧ thr < v)
    ∧ (∀ u : Fin nU,
        u ∈ fastSamplingEligible URM thr ↔ fastSamplingSeen URM thr u ≠ []) := by
  constructor
  · intro u c
    constructor
    · intro hc
      obtain ⟨p, hp, hfst⟩ := List.mem_map.mp hc
      obtain ⟨hmem, hq⟩ := List.mem_filter.mp hp
      simp only [Bool.and_eq_true, decide_eq_true_eq] at hq
      refine ⟨p.2, ?_, hq.1, hq.2⟩
      rw [← hfst]
      simpa using hmem
    · rintro ⟨v, hmem, hv0, hvthr⟩
      refine List.mem_map.mpr ⟨(c, v), List.mem_filter.mpr ⟨hmem, ?_⟩, rfl⟩
      simp [hv0, hvthr]
  · intro u
    simp [fastSamplingEligible, List.mem_filter]

/-- Concrete one-user one-item interaction matrix whose single value equals the
default threshold 3. -/
def URM6 : Fin 1 → List (Fin 1 × ℚ) := fun _ => [(0, 3)]

/-- C6 counterexample: with a single interaction of value exactly 3 and threshold 3,
the PositiveMask marks the item (its test is ≥), but the fast-sampling setup, which
filters with the strict >, leaves userSeenItems empty: the seen set does not equal
the PositiveMask row, refuting the claim as stated. -/
theorem fastSampling_threshold_equality_excluded :
    ¬ (((0 : Fin 1) ∈ fastSamplingSeen URM6 3 0) ↔ URMmask URM6 3 0 0 = true) := by
  have h1 : ¬ ((0 : Fin 1) ∈ fastSamplingSeen URM6 3 0) := by
    norm_num [fastSamplingSeen, URM6, List.filter]
  have h2 : URMmask URM6 3 0 0 = true := by
    norm_num [URMmask, URM6, List.any]
  intro h
  exact h1 (h.mpr h2)

section Learner

variable {nU nI : ℕ}

/-- Python value of the topK configuration parameter: either the literal False or a
number.  Python equality 0 == False makes the value num 0 compare equal to False in
every check the source performs. -/
inductive PyTopK where
  | disabled : PyTopK
  | num : ℤ → PyTopK
deriving DecidableEq

/-- Python's topK != False (source line 410 and line 260): False compares equal
to 0, so the test holds exactly for numbers other than 0. -/
def pyTopKNeFalse : PyTopK → Bool
  | .disabled => false
  | .num k => decide (k ≠ 0)

/-- Python's topK < 1 (False counts as 0, so False < 1 holds). -/
def pyTopKLtOne : PyTopK → Bool
  | .disabled => true
  | .num k => decide (k < 1)

/-- The eager validation at the top of fit_alreadyInitialized (source lines 410-412):
raise iff topK != False and topK < 1. -/
def topKCheckFails (t : PyTopK) : Bool := pyTopKNeFalse t && pyTopKLtOne t

/-- Model state of a SLIM_BPR_Python instance: the fields the verified operations
read and write.  S is the trainable similarity matrix; W stands for the exported
matrix (the W or W_sparse attribute — same mathematical content either way). -/
structure SLIMState (nU nI : ℕ) where
  URM : Fin nU → List (Fin nI × ℚ)
  positive_threshold : ℚ
  S : Mat nI
  W : Mat nI
  userSeenItems : Fin nU → List (Fin nI)
  eligibleUsers : List (Fin nU)
  learning_rate : ℚ
  batch_size : ℕ
  topK : PyTopK

/-- Matrix transpose (the numpy .T view). -/
def transposeM (M : Mat nI) : Mat nI := fun r c => M c r

/-- updateSimilarityMatrix (source lines 258-267): when topK is configured
(topK != False under Python equality, where 0 == False), the export is
similarityMatrixTopK(S.T, k=topK) — and because similarityMatrixTopK defaults to
inplace=True and S.T is a numpy view of the dense S, S itself is overwritten with
the transposed sparsified matrix; when topK is disabled the export is the transpose
of S and S is untouched.  fit validates topK to be False or at least 1, so reading
the clamp k.toNat covers every state reachable through fit. -/
def updateSimilarityMatrix (st : SLIMState nU nI) : SLIMState nU nI :=
  match st.topK with
  | .disabled => { st with W := transposeM st.S }
  | .num k =>
    if k = 0 then { st with W := transposeM st.S }
    else
      { st with
        S := transposeM (selectTopKDense (transposeM st.S) k.toNat)
        W := selectTopKDense (transposeM st.S) k.toNat }

/-- One sampled batch: its length and the index-aligned user, positive-item and
negative-item arrays. -/
def Batch (nU nI : ℕ) := Σ b : ℕ, (Fin b → Fin nU) × (Fin b → Fin nI) × (Fin b → Fin nI)

/-- updateWeightsBatch (source lines 306-372): dispatch on batch_size == 1 between
the single-sample branch, which reads u[0], i[0], j[0], and the vectorized branch,
which reads URM_mask. -/
def updateWeightsBatchState (st : SLIMState nU nI) (e : ℚ → ℚ) (B : Batch nU nI) :
    Mat nI :=
  if st.batch_size = 1 then
    match B with
    | ⟨b, u, i, j⟩ =>
      if h : 0 < b then
        updateWeightsBatch1 st.S (st.userSeenItems (u ⟨0, h⟩)) (i ⟨0, h⟩) (j ⟨0, h⟩)
          st.learning_rate e
      else st.S
  else
    match B with
    | ⟨b, u, i, j⟩ =>
      updateWeightsBatchN st.S (URMmask st.URM st.positive_threshold)
        st.learning_rate b u i j e

/-- The diagonal zeroing at the end of each epoch (source line 525). -/
def zeroDiag (M : Mat nI) : Mat nI := fun r c => if r = c then 0 else M r c

/-- epochIteration (source lines 482-527): apply updateWeightsBatch to every sampled
batch of the epoch, then zero the whole diagonal of S, then refresh the exported
similarity matrix (which, when topK is configured, also rewrites S in place). -/
def epochIteration (st : SLIMState nU nI) (e : ℚ → ℚ) (batches : List (Batch nU nI)) :
    SLIMState nU nI :=
  let st1 := batches.foldl (fun s B => { s with S := updateWeightsBatchState s e B }) st
  updateSimilarityMatrix { st1 with S := zeroDiag st1.S }

/-- fit_alreadyInitialized (source lines 397-457): validate topK eagerly, store the
hyperparameters, then run epochs: epoch 0 only exports the similarity matrix, every
later epoch runs epochIteration when batch_size > 0.  Logging and the external
evaluation collaborator are I/O and outside the embedding. -/
def fit_alreadyInitialized (st : SLIMState nU nI) (e : ℚ → ℚ) (epochs : ℕ)
    (batches : ℕ → List (Batch nU nI)) (batch_size : ℕ) (learning_rate : ℚ)
    (topK : PyTopK) : Except String (SLIMState nU nI) :=
  if topKCheckFails topK then
    Except.error
      "TopK not valid. Acceptable values are either False or a positive integer value."
  else
    Except.ok ((List.range epochs).foldl
      (fun s ep =>
        if 0 < ep then
          (if 0 < s.batch_size then epochIteration s e (batches ep) else s)
        else updateSimilarityMatrix s)
      { st with batch_size := batch_size, learning_rate := learning_rate, topK := topK })

end Learner

/-- C7: for every run of epochIteration — any state, any batch contents, any
batch_size and topK setting — every diagonal entry of S is zero when it completes:
the epilogue assigns 0 across the diagonal, and the subsequent export step either
keeps S or only zeroes entries of it. -/
theorem epochIteration_diag_zero {nU nI : ℕ} (st : SLIMState nU nI) (e : ℚ → ℚ)
    (batches : List (Batch nU nI)) (r : Fin nI) :
    (epochIteration st e batches).S r r = 0 := by
  unfold epochIteration
  generalize (batches.foldl (fun s B => { s with S := updateWeightsBatchState s e B }) st)
    = st1
  rcases htk : st1.topK with _ | k
  · simp [updateSimilarityMatrix, htk, zeroDiag]
  · by_cases hk : k = 0
    · simp [updateSimilarityMatrix, htk, hk, zeroDiag]
    · simp only [updateSimilarityMatrix, htk, if_neg hk]
      simp [selectTopKDense, transposeM, zeroDiag]

/-- C9 (amended): updateSimilarityMatrix recomputes the export as transpose(S),
top-K sparsified per column when topK is configured — but it does NOT leave S
unchanged in the configured case: similarityMatrixTopK runs with inplace=True on the
numpy view S.T, so S becomes the transposed sparsified matrix.  S is left unchanged
exactly when topK is disabled (or 0, which Python equates with False), and then the
export is exactly transpose(S). -/
theorem updateSimilarityMatrix_export {nU nI : ℕ} (st : SLIMState nU nI) :
    ((st.topK = PyTopK.disabled ∨ st.topK = PyTopK.num 0) →
      (updateSimilarityMatrix st).S = st.S
      ∧ (updateSimilarityMatrix st).W = transposeM st.S)
    ∧ (∀ k : ℤ, st.topK = PyTopK.num k → k ≠ 0 →
      (updateSimilarityMatrix st).W = selectTopKDense (transposeM st.S) k.toNat
      ∧ (updateSimilarityMatrix st).S
          = transposeM (selectTopKDense (transposeM st.S) k.toNat)) := by
  constructor
  · rintro (h | h) <;> simp [updateSimilarityMatrix, h]
  · intro k hk hk0
    constructor <;> simp [updateSimilarityMatrix, hk, hk0]

/-- Concrete learner state with dense S = [[1,2],[3,4]] and topK = 1. -/
def St9 : SLIMState 1 2 :=
  { URM := fun _ => []
    positive_threshold := 3
    S := ![![1, 2], ![3, 4]]
    W := Szero
    userSeenItems := fun _ => []
    eligibleUsers := []
    learning_rate := 1
    batch_size := 1
    topK := PyTopK.num 1 }

/-- C9 counterexample: with topK = 1 configured and dense S = [[1,2],[3,4]],
updateSimilarityMatrix does not leave S unchanged — the in-place top-1 selection on
the transpose view zeroes S[0,0]. -/
theorem updateSimilarityMatrix_mutates_S :
    (updateSimilarityMatrix St9).S 0 0 ≠ St9.S 0 0 := by
  norm_num [updateSimilarityMatrix, St9, selectTopKDense, transposeM, notTopKCol,
    argsortCol, List.finRange_succ_eq_map, List.insertionSort, List.orderedInsert,
    Matrix.cons_val_zero, Matrix.cons_val_one, Matrix.head_cons]

/-- Witness instantiating the amended C9 at the concrete state St9 with topK = 1. -/
theorem updateSimilarityMatrix_export_witness :
    (St9.topK = PyTopK.num 1 ∧ (1 : ℤ) ≠ 0)
    ∧ ((updateSimilarityMatrix St9).W = selectTopKDense (transposeM St9.S) (1 : ℤ).toNat
      ∧ (updateSimilarityMatrix St9).S
          = transposeM (selectTopKDense (transposeM St9.S) (1 : ℤ).toNat)) :=
  ⟨⟨rfl, by decide⟩, (updateSimilarityMatrix_export St9).2 1 rfl (by decide)⟩

/-- C8 (amended): fit_alreadyInitialized raises the configuration error (and
produces no training state) if and only if topK is a NEGATIVE number.  Python's
0 == False makes topK = 0 pass the topK != False test, so 0 is silently accepted
and treated as disabled rather than rejected; genuinely negative values are
rejected eagerly at fit entry. -/
theorem fit_raises_iff_negative_topK {nU nI : ℕ} (st : SLIMState nU nI) (e : ℚ → ℚ)
    (epochs : ℕ) (batches : ℕ → List (Batch nU nI)) (batch_size : ℕ)
    (learning_rate : ℚ) (topK : PyTopK) :
    (∃ msg, fit_alreadyInitialized st e epochs batches batch_size learning_rate topK
        = Except.error msg)
    ↔ (∃ k : ℤ, topK = PyTopK.num k ∧ k < 0) := by
  unfold fit_alreadyInitialized
  by_cases hf : topKCheckFails topK = true
  · rw [if_pos hf]
    constructor
    · intro _
      cases topK with
      | disabled => simp [topKCheckFails, pyTopKNeFalse] at hf
      | num k =>
        refine ⟨k, rfl, ?_⟩
        simp [topKCheckFails, pyTopKNeFalse, pyTopKLtOne] at hf
        omega
    · intro _
      exact ⟨_, rfl⟩
  · rw [if_neg hf]
    constructor
    · rintro ⟨msg, hmsg⟩
      cases hmsg
    · rintro ⟨k, rfl, hk⟩
      exact absurd (by simp [topKCheckFails, pyTopKNeFalse, pyTopKLtOne]; omega) hf

/-- C8 counterexample: topK = 0 is not rejected — fit runs and returns a state,
because 0 != False is false in Python — although num 0 is neither the disabled
value nor a positive integer, contradicting the claimed if-and-only-if. -/
theorem fit_accepts_topK_zero :
    (fit_alreadyInitialized St9 (fun x => x) 1 (fun _ => []) 1 1 (PyTopK.num 0)).isOk
      = true
    ∧ ¬ (PyTopK.num 0 = PyTopK.disabled
        ∨ ∃ k : ℤ, 0 < k ∧ PyTopK.num 0 = PyTopK.num k) := by
  constructor
  · rfl
  · rintro (h | ⟨k, hk, hkk⟩)
    · cases h
    · cases hkk
      exact absurd hk (lt_irrefl 0)

section Recommender

variable {m : ℕ}

/-- Scores computed by recommend (source lines 531-537 and 545-553): the user's
URM_train row dotted with the exported similarity matrix gives one finite score per
item; when exclude_seen holds, filter_seen assigns -np.inf (the bottom element of
WithBot ℚ) to every column stored in the user's row. -/
def recommendScores (row : List (Fin m × ℚ)) (W : Mat m) (exclude_seen : Bool)
    (c : Fin m) : WithBot ℚ :=
  if exclude_seen = true ∧ c ∈ row.map Prod.fst then (⊥ : WithBot ℚ)
  else ((row.map (fun p => p.2 * W p.1 c)).sum : ℚ)

/-- recommend (source lines 531-542): compute the scores, rank all items by
scores.argsort()[::-1] (descending score, ties in an arbitrary order), and return
ranking[:at] — the whole ranking when at is None. -/
def recommend (row : List (Fin m × ℚ)) (W : Mat m) (atN : Option ℕ)
    (exclude_seen : Bool) : List (Fin m) :=
  match atN with
  | none => (argsortCol (recommendScores row W exclude_seen)).reverse
  | some a => ((argsortCol (recommendScores row W exclude_seen)).reverse).take a

end Recommender

/-- C5 (amended): with exclude_seen=True every seen item scores −inf while every
unseen item scores a finite rational, so the descending ranking lists all unseen
items strictly before any seen item; whenever at does not exceed the number of
unseen items — in particular for every at ≤ n_items − |seen| — recommend returns no
item present in the user's interaction row.  For larger at, and for the unspecified
at (full ranking), the returned tail does contain the seen items, refuting the
original claim (see recommend_returns_seen_item). -/
theorem recommend_take_unseen {m : ℕ} (row : List (Fin m × ℚ)) (W : Mat m) (a : ℕ)
    (ha : a ≤ (List.finRange m).countP (fun c => decide (c ∉ row.map Prod.fst)))
    (r : Fin m) (hr : r ∈ recommend row W (some a) true) :
    r ∉ row.map Prod.fst := by
  set scores := recommendScores row W true with hscores
  set L := argsortCol scores with hL
  obtain ⟨A, B, hAB, hA, hB⟩ := sorted_split scores (fun c => scores c ≠ ⊥)
    (fun x y hxy hx hy => hx (le_bot_iff.mp (hy ▸ hxy))) L (argsortCol_sorted scores)
  have hbot : ∀ c : Fin m, scores c = ⊥ ↔ c ∈ row.map Prod.fst := by
    intro c
    rw [hscores]
    unfold recommendScores
    by_cases hc : c ∈ row.map Prod.fst
    · simp [hc]
    · simp [hc]
  have hBlen : B.length = (List.finRange m).countP (fun c => decide (c ∉ row.map Prod.fst)) := by
    have h1 : (List.finRange m).countP (fun c => decide (c ∉ row.map Prod.fst))
        = L.countP (fun c => decide (c ∉ row.map Prod.fst)) :=
      ((argsortCol_perm scores).countP_eq _).symm
    rw [h1, hAB, List.countP_append]
    have h2 : A.countP (fun c => decide (c ∉ row.map Prod.fst)) = 0 :=
      List.countP_eq_zero.mpr (by
        intro x hx
        have := hA x hx
        simp only [not_not] at this
        simp [(hbot x).mp this])
    have h3 : B.countP (fun c => decide (c ∉ row.map Prod.fst)) = B.length :=
      List.countP_eq_length.mpr (by
        intro x hx
        have hxs := hB x hx
        have hnot : x ∉ row.map Prod.fst := fun hmem => hxs ((hbot x).mpr hmem)
        simpa using hnot)
    rw [h2, h3]
    omega
  have hrB : r ∈ B := by
    have hrev : recommend row W (some a) true = (B.reverse ++ A.reverse).take a := by
      unfold recommend
      rw [← hL, hAB, List.reverse_append]
    rw [hrev, List.take_append_eq_append_take] at hr
    rcases List.mem_append.mp hr with h | h
    · exact List.mem_reverse.mp (List.mem_of_mem_take h)
    · exfalso
      have hzero : a - B.reverse.length = 0 := by
        rw [List.length_reverse]
        omega
      rw [hzero] at h
      cases h
  intro hmem
  exact hB r hrB ((hbot r).mpr hmem)

/-- Concrete user row for the C5 theorems: the user has interacted with item 0 of 2. -/
def row5 : List (Fin 2 × ℚ) := [(0, 1)]

/-- C5 counterexample: with at unspecified (the full ranking) and exclude_seen=True,
recommend still returns the seen item 0 — filter_seen only pushes seen items to the
bottom of the ranking via −inf scores, and argsort lists every index. -/
theorem recommend_returns_seen_item :
    (0 : Fin 2) ∈ row5.map Prod.fst
    ∧ (0 : Fin 2) ∈ recommend row5 Szero none true := by
  constructor
  · norm_num [row5]
  · norm_num [recommend, argsortCol, recommendScores, row5, Szero,
      List.finRange_succ_eq_map, List.insertionSort, List.orderedInsert]

/-- Witness instantiating the amended C5 at the concrete row, at = 1 = number of
unseen items. -/
theorem recommend_take_unseen_witness :
    (1 ≤ (List.finRange 2).countP (fun c => decide (c ∉ row5.map Prod.fst)))
    ∧ ∀ r : Fin 2, r ∈ recommend row5 Szero (some 1) true → r ∉ row5.map Prod.fst :=
  ⟨by decide,
   fun r hr => recommend_take_unseen row5 Szero 1 (by decide) r hr⟩

end SLIMBPR
